import Mathlib

/-!
Verification of the comic-archive compression pipeline.

This file gives a shallow embedding of the core of the repository
(`compression.py` and `filesystem.py`) and proves or refutes the frozen
claims about it.  Python machine-level details are modelled as follows:
filenames are lists of characters, filesystem trees are inductive values,
raising filesystem operations are `Except`-valued oracles supplied as an
environment, and the thread pool is a small-step operational model whose
atomic steps are the manager's public methods plus the two observable
worker events (a submitted future starting, and a running worker
finishing and firing its completion callback).
-/

namespace ComicsZipper

/-- Task lifecycle states, the string constants used in `compression.py`. -/
inductive Status where
  | pending
  | running
  | completed
  | failed
  | cancelled
deriving DecidableEq, Repr

/-- Error values stored on a task; `compression.py` stores the caught
exception object, of which only presence and text are ever used. -/
abbrev PyErr := String

/-- `CompressionTask.__init__` state: identity, configuration and the
mutable execution fields.  Times are modelled as natural clock readings,
sizes in bytes as naturals. -/
structure CTask where
  source_path : List Char
  target_path : List Char
  preserve_timestamp : Bool
  rename_pattern : Bool
  status : Status
  error : Option PyErr
  start_time : Option Nat
  end_time : Option Nat
  image_count : Nat
  original_size : Nat
  compressed_size : Nat
  md5 : Option (List Char)
deriving DecidableEq, Repr

/-- A freshly constructed task (`CompressionTask.__init__`): status
`pending`, all execution fields cleared. -/
def mkTask (src tgt : List Char) (preserve rename : Bool) : CTask :=
  { source_path := src
    target_path := tgt
    preserve_timestamp := preserve
    rename_pattern := rename
    status := Status.pending
    error := none
    start_time := none
    end_time := none
    image_count := 0
    original_size := 0
    compressed_size := 0
    md5 := none }

/-- The `compression_ratio` field of `CompressionTask.to_dict`:
`original_size / compressed_size if compressed_size else 0`. -/
def toDictRatio (t : CTask) : ℚ :=
  if t.compressed_size = 0 then 0
  else (t.original_size : ℚ) / (t.compressed_size : ℚ)

/-- The record returned by `CompressionManager.get_stats`, restricted to
the fields derived from the task list. -/
structure Stats where
  failed_tasks : Nat
  total_images : Nat
  total_original_size : Nat
  total_compressed_size : Nat
  compression_ratio : ℚ
deriving DecidableEq, Repr

/-- `CompressionManager.get_stats`: sums image counts and byte sizes over
the tasks whose status is `completed`, counts `failed` tasks separately,
and reports `total_compressed_size / total_original_size` (0 when the
original total is 0) as the aggregate compression ratio. -/
def getStats (tasks : List CTask) : Stats :=
  let completed := tasks.filter (fun t => decide (t.status = Status.completed))
  let failed := tasks.filter (fun t => decide (t.status = Status.failed))
  let torig := (completed.map (fun t => t.original_size)).sum
  let tcomp := (completed.map (fun t => t.compressed_size)).sum
  { failed_tasks := failed.length
    total_images := (completed.map (fun t => t.image_count)).sum
    total_original_size := torig
    total_compressed_size := tcomp
    compression_ratio := if torig = 0 then 0 else (tcomp : ℚ) / (torig : ℚ) }

/-- Index of the last occurrence of a character in a list, if any
(Python's `str.rfind`). -/
def rfindIdx (c : Char) (s : List Char) : Option Nat :=
  (List.range s.length).foldl
    (fun acc i => if s.get? i = some c then some i else acc) none

/-- The extension part of `os.path.splitext` for a bare filename (no
separators): the suffix from the last dot, unless every character before
that dot is itself a dot (leading dots are not an extension). -/
def splitextExt (s : List Char) : List Char :=
  match rfindIdx '.' s with
  | none => []
  | some i => if (s.take i).any (fun c => c ≠ '.') then s.drop i else []

/-- Python `str.lower` on a filename; the allow-listed extensions are
ASCII, for which `Char.toLower` agrees with Python. -/
def pyLower (s : List Char) : List Char := s.map Char.toLower

/-- The image-extension allow-list shared by `CompressionManager` and
`FileSystemScanner`. -/
def image_extensions : List (List Char) :=
  [".jpg".data, ".jpeg".data, ".png".data, ".gif".data, ".bmp".data,
   ".webp".data, ".tiff".data, ".tif".data, ".ico".data, ".jfif".data,
   ".heic".data]

/-- `is_image_file`: the lower-cased extension is in the allow-list. -/
def is_image_file (name : List Char) : Bool :=
  image_extensions.contains (splitextExt (pyLower name))

/-- Index of the last path separator in a path, if any. -/
def lastSepIdx (p : List Char) : Option Nat := rfindIdx '/' p

/-- `os.path.basename` for the paths the manager builds. -/
def basenameOf (p : List Char) : List Char :=
  match lastSepIdx p with
  | none => p
  | some i => p.drop (i + 1)

/-- `os.path.dirname` for the paths the manager builds. -/
def dirnameOf (p : List Char) : List Char :=
  match lastSepIdx p with
  | none => []
  | some i => p.take i

/-- `os.path.join(dir, name)` for a bare final component. -/
def joinPath (d f : List Char) : List Char :=
  if d = [] then f else d ++ ['/'] ++ f

/-- The regex `\x5e(\d+)\.zip$` of `number_only_pattern`: the captured
digit group when the whole name is digits followed by `.zip`. -/
def numberOnlyMatch (name : List Char) : Option (List Char) :=
  let digits := name.takeWhile Char.isDigit
  if digits ≠ [] ∧ name = digits ++ ".zip".data then some digits else none

/-- The rename step of `compress_directory` (lines 128-137): when
`rename_pattern` is set and the target's basename is purely numeric, the
final target becomes `第<digits>章.zip` in the same directory. -/
def computeFinalTarget (t : CTask) : List Char :=
  if t.rename_pattern then
    match numberOnlyMatch (basenameOf t.target_path) with
    | some digits =>
        joinPath (dirnameOf t.target_path)
          ("第".data ++ digits ++ "章.zip".data)
    | none => t.target_path
  else t.target_path

/-- Outcomes of the raising filesystem operations performed by one run of
`compress_directory`, in program order.  `count_images_in_directory`
catches every exception internally and returns partial counts, so it is
modelled as a plain pair.  The two `time.time()` readings are `now1`
(entry) and `now2` (exit). -/
structure FsEnv where
  now1 : Nat
  now2 : Nat
  countImages : Nat × Nat
  getmtime : Except PyErr Nat
  writeZip : Except PyErr Unit
  finalize : Except PyErr Unit
  utime : Except PyErr Unit
  md5 : Except PyErr (List Char)
  getsize : Except PyErr Nat
  rmtree : Except PyErr Unit

/-- Whether an `Except`-modelled filesystem step raised. -/
def isErr {α : Type} : Except PyErr α → Bool
  | Except.error _ => true
  | Except.ok _ => false

/-- `CompressionManager.compress_directory`, lines 103-166.  The task is
mutated in place in Python; here each partial mutation is threaded so that
a failure keeps exactly the fields already assigned.  The single
`try/except Exception` around steps 2-8 becomes the error cascade: the
first failing step jumps to the handler, which sets `failed` and stores
the error; `end_time` is recorded on both paths and the (updated) task is
returned, so no exception leaves the function. -/
def compressDirectory (env : FsEnv) (t0 : CTask) : CTask :=
  let t := { t0 with start_time := some env.now1, status := Status.running }
  let t := { t with image_count := env.countImages.1,
                    original_size := env.countImages.2 }
  let finish := fun (t : CTask) => { t with end_time := some env.now2 }
  let fail := fun (t : CTask) (e : PyErr) =>
    finish { t with status := Status.failed, error := some e }
  match env.getmtime with
  | Except.error e => fail t e
  | Except.ok _mtime =>
    match env.writeZip with
    | Except.error e => fail t e
    | Except.ok _ =>
      let finalTarget := computeFinalTarget t
      match env.finalize with
      | Except.error e => fail t e
      | Except.ok _ =>
        let t := { t with target_path := finalTarget }
        match (if t.preserve_timestamp then env.utime else Except.ok ()) with
        | Except.error e => fail t e
        | Except.ok _ =>
          match env.md5 with
          | Except.error e => fail t e
          | Except.ok h =>
            let t := { t with md5 := some h }
            match env.getsize with
            | Except.error e => fail t e
            | Except.ok sz =>
              let t := { t with compressed_size := sz }
              match env.rmtree with
              | Except.error e => fail t e
              | Except.ok _ => finish { t with status := Status.completed }

/-- Whether some step actually executed by `compress_directory` raises:
`utime` only runs when `preserve_timestamp` is set, and an earlier failure
makes the later flags irrelevant. -/
def anyStepFails (env : FsEnv) (t : CTask) : Bool :=
  isErr env.getmtime || isErr env.writeZip || isErr env.finalize ||
    (t.preserve_timestamp && isErr env.utime) || isErr env.md5 ||
    isErr env.getsize || isErr env.rmtree

/-- Directory names excluded from traversal by `FileSystemScanner`. -/
def excluded_dirs : List (List Char) :=
  [".git".data, "__pycache__".data, ".svn".data, "node_modules".data,
   ".vscode".data]

/-- One entry returned by `os.scandir`: a regular file, a sub-directory,
or anything else (an entry that is neither `is_file` nor `is_dir`). -/
inductive Entry where
  | file (name : List Char)
  | dir (name : List Char)
  | other (name : List Char)
deriving DecidableEq, Repr

/-- The `for item in os.scandir(dir_path)` loop of `is_chapter_directory`
(lines 40-48), with its accumulators `has_images`/`has_subdirs` and the
early `break` once both an image and a sub-directory have been seen. -/
def chapterScan : List Entry → Bool → Bool → Bool × Bool
  | [], hi, hs => (hi, hs)
  | Entry.file n :: rest, hi, hs =>
      chapterScan rest (hi || is_image_file n) hs
  | Entry.dir n :: rest, hi, hs =>
      if excluded_dirs.contains n then chapterScan rest hi hs
      else if hi then (hi, true)
      else chapterScan rest hi true
  | Entry.other _ :: rest, hi, hs => chapterScan rest hi hs

/-- `FileSystemScanner.is_chapter_directory` on a readable directory whose
entry listing is `l` (first classification of the path, so the memo cache
has no binding for it; the cache only replays this result).  The final
result combination mirrors lines 54-60 verbatim. -/
def is_chapter_directory (l : List Entry) : Bool :=
  let p := chapterScan l false false
  let result := p.1 && !p.2
  if p.1 && p.2 then true else result

/-- Whether an entry is a regular file with an allow-listed image
extension: what the claim calls a direct image of the directory. -/
def isDirectImage : Entry → Bool
  | Entry.file n => is_image_file n
  | _ => false

/-- A file inside a chapter tree: base name and byte size. -/
structure FileEnt where
  name : List Char
  size : Nat
deriving DecidableEq, Repr

/-- A directory tree as seen by `os.walk`: the files directly inside,
and the sub-directory trees. -/
inductive FsDir where
  | node (files : List FileEnt) (subdirs : List FsDir)
deriving Repr

mutual

/-- The files yielded by `os.walk` from a root, in top-down order: the
root's own files first, then each sub-tree's files recursively.  Both
`count_images_in_directory` and the archive-writing loop of
`compress_directory` iterate exactly this sequence. -/
def walkFiles : FsDir → List FileEnt
  | FsDir.node files subdirs => files ++ walkFilesList subdirs

/-- `walkFiles` over a list of sub-trees, in order. -/
def walkFilesList : List FsDir → List FileEnt
  | [] => []
  | d :: ds => walkFiles d ++ walkFilesList ds

end

/-- `CompressionManager.count_images_in_directory` (lines 80-93) on a
static snapshot (the internal `try` never fires): walk the tree and, for
each image file, add one to the count and its size to the total. -/
def count_images_in_directory (d : FsDir) : Nat × Nat :=
  (walkFiles d).foldl
    (fun acc f => if is_image_file f.name then (acc.1 + 1, acc.2 + f.size) else acc)
    (0, 0)

/-- One entry of the produced ZIP: archive name and decompressed size. -/
structure ZipEntry where
  arcname : List Char
  size : Nat
deriving DecidableEq, Repr

/-- The entries written by the `zipfile` loop of `compress_directory`
(lines 119-126): every image file of the walk becomes one entry whose
`arcname` is the bare filename (flattening) and whose decompressed size
is the file's size.  `ZipFile.write` appends entries, so two files with
the same base name yield two entries with the same `arcname`. -/
def zipEntriesOf (d : FsDir) : List ZipEntry :=
  (walkFiles d).filterMap
    (fun f => if is_image_file f.name then some ⟨f.name, f.size⟩ else none)

/-- A directory of the scanned tree: its name and its sub-directories
(the files play no role in progress accounting, which fires before the
chapter test). -/
inductive DirNode where
  | node (name : List Char) (subdirs : List DirNode)
deriving Repr

/-- The name of a scanned directory. -/
def DirNode.dname : DirNode → List Char
  | DirNode.node name _ => name

/-- The `dirs[:] = [d for d in dirs if d not in self.excluded_dirs]`
filter applied at every walk root. -/
def filterEx (l : List DirNode) : List DirNode :=
  l.filter (fun c => !(excluded_dirs.contains c.dname))

mutual

/-- First pass of `scan_for_comic_directories` (lines 79-87): walking from
a root at `d` levels below the scan root, `total_dirs` grows by the number
of entries of `dirs` before the exclusion filter, and the walk descends
into the filtered children only while the depth bound is not reached. -/
def totDirs (maxD d : Nat) : DirNode → Nat
  | DirNode.node _ subdirs =>
      subdirs.length +
        (if maxD ≤ d then 0 else totDirsList maxD (d + 1) subdirs)

/-- `totDirs` summed over the children that survive the exclusion
filter. -/
def totDirsList (maxD d : Nat) : List DirNode → Nat
  | [] => 0
  | c :: cs =>
      (if excluded_dirs.contains c.dname then 0 else totDirs maxD d c) +
        totDirsList maxD d cs

end

mutual

/-- Number of directories enumerated by the second (classification) pass
(lines 92-115): at each root within the depth bound, every filtered child
is processed once, and the walk then descends into those children. -/
def visitDirs (maxD d : Nat) : DirNode → Nat
  | DirNode.node _ subdirs =>
      if maxD ≤ d then 0
      else (filterEx subdirs).length + visitDirsList maxD (d + 1) subdirs

/-- `visitDirs` summed over the children surviving the filter. -/
def visitDirsList (maxD d : Nat) : List DirNode → Nat
  | [] => 0
  | c :: cs =>
      (if excluded_dirs.contains c.dname then 0 else visitDirs maxD d c) +
        visitDirsList maxD d cs

end

mutual

/-- Second pass of `scan_for_comic_directories`, keeping the value of
`processed_dirs` passed to each `progress_callback` invocation: at a root
within the depth bound the loop over the filtered children fires the
callback once per child with the freshly incremented counter, after which
the walk descends into each child in order.  Returns the final counter and
the emitted counter values in order. -/
def procDirs (maxD d p : Nat) : DirNode → Nat × List Nat
  | DirNode.node _ subdirs =>
      if maxD ≤ d then (p, [])
      else
        let k := (filterEx subdirs).length
        let emits := (List.range k).map (fun j => p + 1 + j)
        let pr := procDirsList maxD (d + 1) (p + k) subdirs
        (pr.1, emits ++ pr.2)

/-- `procDirs` threaded left-to-right over the children surviving the
filter. -/
def procDirsList (maxD d p : Nat) : List DirNode → Nat × List Nat
  | [] => (p, [])
  | c :: cs =>
      if excluded_dirs.contains c.dname then procDirsList maxD d p cs
      else
        let r1 := procDirs maxD d p c
        let r2 := procDirsList maxD d r1.1 cs
        (r2.1, r1.2 ++ r2.2)

end

/-- The `processed_dirs` values at the successive `progress_callback`
invocations of one scan (`total_dirs > 0` whenever any fire, so the
guard on line 106 never suppresses one). -/
def scanEmissions (maxD : Nat) (root : DirNode) : List Nat :=
  (procDirs maxD 0 0 root).2

/-- The progress fractions passed to the callback: each emitted counter
over the first pass's total. -/
def scanFractions (maxD : Nat) (root : DirNode) : List ℚ :=
  (scanEmissions maxD root).map
    (fun p : Nat => (p : ℚ) / ((totDirs maxD 0 root : Nat) : ℚ))

/-! ## The scheduler / worker-pool model

`CompressionManager` is modelled as a state machine.  Atomic steps are the
manager's public methods and, for each live future, the two observable
worker events: the pool picking the submitted work item up (which runs the
head of `compress_directory`, setting the task `running`), and the worker
returning (which sets the terminal status and fires the registered
completion callback `_task_completed`, incrementing `completed_tasks`
under the lock).  Two facts of `concurrent.futures` are part of the
embedding: `shutdown(wait=False, cancel_futures=True)` synchronously
cancels exactly the work items still in the shut-down executor's queue,
and a future that is cancelled *also* runs its done callbacks, so
`_task_completed` increments the counter for it; `resume`/`start` build a
fresh executor, and workers of a discarded executor keep running.  The
model takes `update_callback = None` (the constructor default), so
`_task_completed` is just the guarded increment; only the `status` field
of each task is read or written by the scheduler, so tasks are carried as
their statuses. -/

/-- Lifecycle of one submitted future: in the executor's queue, picked up
by a worker, or dead (worker returned, or queue entry cancelled). -/
inductive FutSt where
  | queued
  | active
  | dead
deriving DecidableEq, Repr

/-- One future: the index of its task in the manager's task list, the
executor instance that it was submitted to, and its lifecycle state. -/
structure FutureRec where
  idx : Nat
  gen : Nat
  st : FutSt
deriving DecidableEq, Repr

/-- `CompressionManager` state: task statuses, the two counters, the two
flags, the current executor (`none` = `self.executor is None`) named by
generation, the next fresh generation, and every future ever created. -/
structure Mgr where
  tasks : List Status
  completed_tasks : Nat
  total_tasks : Nat
  running : Bool
  paused : Bool
  executorGen : Option Nat
  nextGen : Nat
  futures : List FutureRec
deriving DecidableEq, Repr

/-- A freshly constructed manager (`CompressionManager.__init__`). -/
def initMgr : Mgr :=
  { tasks := [], completed_tasks := 0, total_tasks := 0, running := false,
    paused := false, executorGen := none, nextGen := 0, futures := [] }

/-- `add_task`: append a fresh `pending` task. -/
def addTaskFn (m : Mgr) : Mgr :=
  { m with tasks := m.tasks ++ [Status.pending] }

/-- Indices of the tasks currently in `pending` state, in list order. -/
def pendingIdxs (tasks : List Status) : List Nat :=
  (List.range tasks.length).filter (fun i => decide (tasks.get? i = some Status.pending))

/-- The futures created by the `executor.submit` loop over the `pending`
tasks, submitted to executor `g`. -/
def submitFutures (tasks : List Status) (g : Nat) : List FutureRec :=
  (pendingIdxs tasks).map (fun i => { idx := i, gen := g, st := FutSt.queued })

/-- Whether a future is still queued in executor `g`. -/
def isQueuedOf (g : Nat) (f : FutureRec) : Bool :=
  f.gen == g && f.st == FutSt.queued

/-- `if self.executor: self.executor.shutdown(wait=False,
cancel_futures=True); self.executor = None` — the teardown shared by
`pause` and `cancel`.  Cancelling a queued future runs its done callback
`_task_completed`, so `completed_tasks` grows by the number of work items
still in the queue; futures already picked up by a worker are
untouched. -/
def shutdownCancel (m : Mgr) : Mgr :=
  match m.executorGen with
  | none => m
  | some g =>
      { m with
        futures := m.futures.map
          (fun f => if isQueuedOf g f then { f with st := FutSt.dead } else f),
        completed_tasks :=
          m.completed_tasks + (m.futures.filter (isQueuedOf g)).length,
        executorGen := none }

/-- `start` (lines 181-202): no-op while running; otherwise reset the run
counters — `total_tasks = len(self.tasks)` — and, unless the task list is
empty, build a fresh executor and submit every `pending` task. -/
def startFn (m : Mgr) : Mgr :=
  if m.running then m
  else
    let m1 := { m with running := true, paused := false, completed_tasks := 0,
                       total_tasks := m.tasks.length }
    if m1.total_tasks = 0 then m1
    else
      { m1 with executorGen := some m1.nextGen, nextGen := m1.nextGen + 1,
                futures := m1.futures ++ submitFutures m1.tasks m1.nextGen }

/-- `pause` (lines 215-220): set the flag, then tear the executor down. -/
def pauseFn (m : Mgr) : Mgr :=
  shutdownCancel { m with paused := true }

/-- `resume` (lines 222-237): no-op unless paused; otherwise build a fresh
executor, resubmit every task still `pending`, and clear the flag. -/
def resumeFn (m : Mgr) : Mgr :=
  if !m.paused then m
  else
    { m with executorGen := some m.nextGen, nextGen := m.nextGen + 1,
             futures := m.futures ++ submitFutures m.tasks m.nextGen,
             paused := false }

/-- `cancel` (lines 239-249): clear `running`, tear the executor down,
then rewrite the status of every task still `running` to `cancelled`. -/
def cancelFn (m : Mgr) : Mgr :=
  let m1 := shutdownCancel { m with running := false }
  { m1 with
    tasks := m1.tasks.map
      (fun s => if s = Status.running then Status.cancelled else s) }

/-- A worker picks up the queued future at position `k`: the future turns
`active` and the head of `compress_directory` marks its task `running`. -/
def beginFn (m : Mgr) (k : Nat) : Mgr :=
  match m.futures.get? k with
  | some f =>
      if f.st = FutSt.queued then
        { m with futures := m.futures.set k { f with st := FutSt.active },
                 tasks := m.tasks.set f.idx Status.running }
      else m
  | none => m

/-- The worker of the active future at position `k` returns:
`compress_directory` has set the task's terminal status (`completed` on
success, `failed` on a caught exception), the future is done, and its
done callback `_task_completed` increments `completed_tasks` under the
lock. -/
def finishFn (m : Mgr) (k : Nat) (ok : Bool) : Mgr :=
  match m.futures.get? k with
  | some f =>
      if f.st = FutSt.active then
        { m with futures := m.futures.set k { f with st := FutSt.dead },
                 tasks := m.tasks.set f.idx
                   (if ok then Status.completed else Status.failed),
                 completed_tasks := m.completed_tasks + 1 }
      else m
  | none => m

/-- The alphabet of atomic steps. -/
inductive Op where
  | add
  | start
  | pause
  | resume
  | cancel
  | beginW (k : Nat)
  | finishW (k : Nat) (ok : Bool)
deriving DecidableEq, Repr

/-- Apply one step. -/
def applyOp (m : Mgr) : Op → Mgr
  | Op.add => addTaskFn m
  | Op.start => startFn m
  | Op.pause => pauseFn m
  | Op.resume => resumeFn m
  | Op.cancel => cancelFn m
  | Op.beginW k => beginFn m k
  | Op.finishW k ok => finishFn m k ok

/-- A step is enabled: manager methods always are; a worker can pick up
only a future still queued, and only a picked-up worker can return. -/
def validOp (m : Mgr) : Op → Bool
  | Op.beginW k =>
      match m.futures.get? k with
      | some f => f.st == FutSt.queued
      | none => false
  | Op.finishW k _ =>
      match m.futures.get? k with
      | some f => f.st == FutSt.active
      | none => false
  | _ => true

/-- Run a sequence of steps. -/
def runOps (m : Mgr) (ops : List Op) : Mgr := ops.foldl applyOp m

/-- Every step of the sequence is enabled when reached. -/
def validOps (m : Mgr) : List Op → Bool
  | [] => true
  | op :: rest => validOp m op && validOps (applyOp m op) rest

/-- The documented call protocol (spec 4.3's run state machine): `resume`
is invoked on a paused manager only while the run is live.  Calling it
after `cancel` (or before any `start`) resubmits pending tasks of a dead
run, which double-executes tasks; every other call pattern is free. -/
def protoOp (m : Mgr) : Op → Bool
  | Op.resume => !m.paused || m.running
  | _ => true

/-- Every step of the sequence respects the call protocol. -/
def protoOps (m : Mgr) : List Op → Bool
  | [] => true
  | op :: rest => protoOp m op && protoOps (applyOp m op) rest

/-- Number of work items still queued in the current executor — the
futures whose done callbacks `shutdown(cancel_futures=True)` fires. -/
def queuedOfCurrent (m : Mgr) : Nat :=
  match m.executorGen with
  | none => 0
  | some g => (m.futures.filter (isQueuedOf g)).length

/-- C1: the completion counter is NOT incremented exactly once per task.
One task, started, paused before a worker picks it up, resumed, then run
to completion: the pause cancels the queued future, whose done callback
already increments `completed_tasks`, and the finished re-execution
increments it again — the single task ends `completed` with the counter
at 2.  This evaluates the code model at the claim's own
pause-then-resume scenario. -/
theorem completed_counter_double_counts :
    validOps initMgr
        [Op.add, Op.start, Op.pause, Op.resume, Op.beginW 1, Op.finishW 1 true] = true ∧
    protoOps initMgr
        [Op.add, Op.start, Op.pause, Op.resume, Op.beginW 1, Op.finishW 1 true] = true ∧
    (runOps initMgr
        [Op.add, Op.start, Op.pause, Op.resume, Op.beginW 1, Op.finishW 1 true]).tasks
      = [Status.completed] ∧
    (runOps initMgr
        [Op.add, Op.start, Op.pause, Op.resume, Op.beginW 1, Op.finishW 1 true]).completed_tasks
      = 2 := by
  decide

/-- C2, counterexample: `start()` snapshots `total_tasks` as the length
of the whole task list, not the pending count.  After one of two tasks
has completed and the run was cancelled, exactly one task is `pending`,
yet a fresh `start()` records `total_tasks = 2`. -/
theorem start_total_snapshot_cx :
    ((runOps initMgr
        [Op.add, Op.add, Op.start, Op.beginW 0, Op.finishW 0 true, Op.cancel]).tasks.filter
          (fun s => decide (s = Status.pending))).length = 1 ∧
    (runOps initMgr
        [Op.add, Op.add, Op.start, Op.beginW 0, Op.finishW 0 true, Op.cancel]).running = false ∧
    (startFn (runOps initMgr
        [Op.add, Op.add, Op.start, Op.beginW 0, Op.finishW 0 true, Op.cancel])).total_tasks
      = 2 := by
  decide

/-- C2, amended: `start()` is a no-op when already running; otherwise it
sets `running`, clears `paused`, zeroes the completed counter, snapshots
`total_tasks` as the length of the whole task list, and when that length
is zero returns at once with no executor built and no future submitted
(otherwise it submits exactly the pending tasks to a fresh executor). -/
theorem start_resets_and_submits (m : Mgr) :
    (m.running = true → startFn m = m) ∧
    (m.running = false →
      (startFn m).running = true ∧
      (startFn m).paused = false ∧
      (startFn m).completed_tasks = 0 ∧
      (startFn m).total_tasks = m.tasks.length ∧
      (startFn m).tasks = m.tasks ∧
      (m.tasks.length = 0 →
        (startFn m).futures = m.futures ∧ (startFn m).executorGen = m.executorGen) ∧
      (m.tasks.length ≠ 0 →
        (startFn m).futures = m.futures ++ submitFutures m.tasks m.nextGen ∧
        (startFn m).executorGen = some m.nextGen)) := by
  constructor
  · intro h
    simp [startFn, h]
  · intro h
    by_cases h0 : m.tasks.length = 0 <;> simp [startFn, h, h0]

/-- C4: `cancel()` clears the running flag and rewrites exactly the
tasks whose status is `running` to `cancelled`, leaving `pending`,
`completed` and `failed` statuses unchanged. -/
theorem cancel_marks_exactly_running (m : Mgr) (i : Nat) :
    (cancelFn m).running = false ∧
    (cancelFn m).tasks.get? i =
      (m.tasks.get? i).map
        (fun s => if s = Status.running then Status.cancelled else s) := by
  unfold cancelFn shutdownCancel
  cases h : m.executorGen <;> simp [h, List.get?_map]

/-- C10, counterexample: `pause()` does not change only the paused flag
and the executor — cancelling the still queued future of a started run
fires its completion callback, which increments `completed_tasks`. -/
theorem pause_frame_cx :
    (runOps initMgr [Op.add, Op.start]).completed_tasks = 0 ∧
    (pauseFn (runOps initMgr [Op.add, Op.start])).completed_tasks = 1 := by
  decide

/-- C10, amended: `pause()` sets the paused flag, tears the executor
down (which bumps the completed counter by the number of queued futures
it cancels), and leaves the running flag, the task list and the total
untouched — so after pausing a live run `start()` is a no-op and
`resume()` resubmits exactly the still pending tasks. -/
theorem pause_keeps_running_flag (m : Mgr) :
    (pauseFn m).paused = true ∧
    (pauseFn m).running = m.running ∧
    (pauseFn m).tasks = m.tasks ∧
    (pauseFn m).total_tasks = m.total_tasks ∧
    (pauseFn m).executorGen = none ∧
    (pauseFn m).nextGen = m.nextGen ∧
    (pauseFn m).completed_tasks = m.completed_tasks + queuedOfCurrent m ∧
    (m.running = true → startFn (pauseFn m) = pauseFn m) ∧
    (resumeFn (pauseFn m)).paused = false ∧
    (resumeFn (pauseFn m)).futures =
      (pauseFn m).futures ++ submitFutures m.tasks m.nextGen := by
  unfold pauseFn shutdownCancel queuedOfCurrent resumeFn
  cases h : m.executorGen <;>
    simp [h, startFn] <;>
    · intro h1 h2
      rw [h1] at h2
      exact Bool.noConfusion h2

/-! ### Status monotonicity apparatus -/

/-- The permitted evolutions of one task slot's status across a single
atomic step: unchanged, a fresh slot appearing `pending`, the forward
moves `pending → running → {completed, failed, cancelled}`, and the one
cancellation overwrite `cancelled → {completed, failed}` performed by an
in-flight worker that `cancel()` could not interrupt. -/
def allowedNext : Option Status → Option Status → Bool
  | none, none => true
  | none, some Status.pending => true
  | some s, some s2 =>
      decide (s = s2) ||
        (match s, s2 with
         | Status.pending, Status.running => true
         | Status.running, Status.completed => true
         | Status.running, Status.failed => true
         | Status.running, Status.cancelled => true
         | Status.cancelled, Status.completed => true
         | Status.cancelled, Status.failed => true
         | _, _ => false)
  | _, _ => false

/-- State invariant of the manager, maintained by every enabled step that
respects the call protocol: queued futures point at `pending` tasks of
the current executor, picked-up futures point at `running` (or
cancelled-while-in-flight) tasks, no two live futures share a task, and
a manager that is not running, or is paused, has no queued future. -/
structure Inv (m : Mgr) : Prop where
  queued_pending : ∀ j f, m.futures.get? j = some f → f.st = FutSt.queued →
    m.tasks.get? f.idx = some Status.pending
  active_mark : ∀ j f, m.futures.get? j = some f → f.st = FutSt.active →
    m.tasks.get? f.idx = some Status.running ∨
      m.tasks.get? f.idx = some Status.cancelled
  live_uniq : ∀ j j2 f f2, j ≠ j2 → m.futures.get? j = some f →
    m.futures.get? j2 = some f2 → f.st ≠ FutSt.dead → f2.st ≠ FutSt.dead →
    f.idx ≠ f2.idx
  queued_gen : ∀ j f, m.futures.get? j = some f → f.st = FutSt.queued →
    m.executorGen = some f.gen
  idle_no_queued : m.running = false → ∀ j f, m.futures.get? j = some f →
    f.st ≠ FutSt.queued
  paused_no_queued : m.paused = true → ∀ j f, m.futures.get? j = some f →
    f.st ≠ FutSt.queued

theorem inv_initMgr : Inv initMgr := by
  constructor <;> intros <;> simp_all [initMgr]

theorem allowedNext_refl (a : Option Status) : allowedNext a a = true := by
  cases a with
  | none => rfl
  | some s => cases s <;> rfl

theorem get?_some_lt {α : Type} {l : List α} {i : Nat} {a : α}
    (h : l.get? i = some a) : i < l.length := by
  by_contra hc
  rw [List.get?_eq_none.2 (by omega)] at h
  exact Option.noConfusion h

theorem get?_append_of_some {α : Type} {l l2 : List α} {i : Nat} {a : α}
    (h : l.get? i = some a) : (l ++ l2).get? i = some a := by
  rw [List.get?_append (get?_some_lt h)]
  exact h

theorem pendingIdxs_get? {tasks : List Status} {j i : Nat}
    (h : (pendingIdxs tasks).get? j = some i) :
    tasks.get? i = some Status.pending := by
  have hm := List.get?_mem h
  unfold pendingIdxs at hm
  rw [List.mem_filter] at hm
  exact of_decide_eq_true hm.2

theorem pendingIdxs_nodup (tasks : List Status) : (pendingIdxs tasks).Nodup :=
  List.Nodup.filter _ (List.nodup_range _)

theorem submitFutures_get? {tasks : List Status} {g j : Nat} {f : FutureRec}
    (h : (submitFutures tasks g).get? j = some f) :
    f.st = FutSt.queued ∧ f.gen = g ∧
      tasks.get? f.idx = some Status.pending := by
  unfold submitFutures at h
  rw [List.get?_map] at h
  cases hp : (pendingIdxs tasks).get? j with
  | none => rw [hp] at h; exact Option.noConfusion h
  | some i =>
      rw [hp] at h
      cases h
      exact ⟨rfl, rfl, pendingIdxs_get? hp⟩

theorem submitFutures_idx_ne {tasks : List Status} {g j j2 : Nat}
    {f f2 : FutureRec} (hne : j ≠ j2)
    (h : (submitFutures tasks g).get? j = some f)
    (h2 : (submitFutures tasks g).get? j2 = some f2) : f.idx ≠ f2.idx := by
  unfold submitFutures at h h2
  rw [List.get?_map] at h h2
  cases hp : (pendingIdxs tasks).get? j with
  | none => rw [hp] at h; exact Option.noConfusion h
  | some i =>
      cases hp2 : (pendingIdxs tasks).get? j2 with
      | none => rw [hp2] at h2; exact Option.noConfusion h2
      | some i2 =>
          rw [hp] at h; rw [hp2] at h2
          cases h; cases h2
          intro hii
          simp only at hii
          exact hne (List.get?_inj (get?_some_lt hp) (pendingIdxs_nodup tasks)
            (hp.trans (hii ▸ hp2.symm)))

theorem shutdown_tasks (m : Mgr) : (shutdownCancel m).tasks = m.tasks := by
  unfold shutdownCancel
  cases m.executorGen <;> rfl

theorem shutdown_running (m : Mgr) : (shutdownCancel m).running = m.running := by
  unfold shutdownCancel
  cases m.executorGen <;> rfl

theorem shutdown_paused (m : Mgr) : (shutdownCancel m).paused = m.paused := by
  unfold shutdownCancel
  cases m.executorGen <;> rfl

theorem shutdown_origin {m : Mgr} {j : Nat} {f : FutureRec}
    (h : (shutdownCancel m).futures.get? j = some f) :
    ∃ f0, m.futures.get? j = some f0 ∧ f0.idx = f.idx ∧
      (f.st ≠ FutSt.dead → f0.st = f.st) := by
  unfold shutdownCancel at h
  cases hg : m.executorGen with
  | none =>
      rw [hg] at h
      exact ⟨f, h, rfl, fun _ => rfl⟩
  | some g =>
      rw [hg] at h
      simp only [List.get?_map] at h
      cases hf : m.futures.get? j with
      | none => rw [hf] at h; exact Option.noConfusion h
      | some f0 =>
          rw [hf] at h
          simp only [Option.map_some'] at h
          refine ⟨f0, rfl, ?_, ?_⟩ <;> by_cases hq : isQueuedOf g f0 = true
          · rw [if_pos hq] at h; cases h; rfl
          · rw [if_neg hq] at h; cases h; rfl
          · rw [if_pos hq] at h; cases h; intro hc; exact absurd rfl hc
          · rw [if_neg hq] at h; cases h; intro _; rfl

theorem shutdown_no_queued {m : Mgr}
    (hgen : ∀ j f, m.futures.get? j = some f → f.st = FutSt.queued →
      m.executorGen = some f.gen) :
    ∀ j f, (shutdownCancel m).futures.get? j = some f → f.st ≠ FutSt.queued := by
  intro j f h
  unfold shutdownCancel at h
  cases hg : m.executorGen with
  | none =>
      rw [hg] at h
      intro hq
      have := hgen j f h hq
      rw [hg] at this
      exact Option.noConfusion this
  | some g =>
      rw [hg] at h
      simp only [List.get?_map] at h
      cases hf : m.futures.get? j with
      | none => rw [hf] at h; exact Option.noConfusion h
      | some f0 =>
          rw [hf] at h
          simp only [Option.map_some'] at h
          by_cases hq : isQueuedOf g f0 = true
          · rw [if_pos hq] at h; cases h; simp
          · rw [if_neg hq] at h
            cases h
            intro hqs
            have hgg := hgen j f hf hqs
            rw [hg] at hgg
            have hge : g = f.gen := Option.some.inj hgg
            apply hq
            simp [isQueuedOf, hqs, ← hge]

theorem inv_add {m : Mgr} (h : Inv m) : Inv (addTaskFn m) := by
  constructor
  · intro j f hf hq
    exact get?_append_of_some (h.queued_pending j f hf hq)
  · intro j f hf ha
    rcases h.active_mark j f hf ha with hm | hm
    · exact Or.inl (get?_append_of_some hm)
    · exact Or.inr (get?_append_of_some hm)
  · exact h.live_uniq
  · exact h.queued_gen
  · exact h.idle_no_queued
  · exact h.paused_no_queued

theorem inv_pause {m : Mgr} (h : Inv m) : Inv (pauseFn m) := by
  unfold pauseFn
  have hgen : ∀ j f,
      ({ m with paused := true } : Mgr).futures.get? j = some f →
      f.st = FutSt.queued →
      ({ m with paused := true } : Mgr).executorGen = some f.gen :=
    h.queued_gen
  have nq := shutdown_no_queued hgen
  constructor
  · intro j f hf hq
    exact absurd hq (nq j f hf)
  · intro j f hf ha
    obtain ⟨f0, hf0, hidx, hst⟩ := shutdown_origin hf
    have hact : f0.st = FutSt.active := (hst (by simp [ha])).trans ha
    rw [shutdown_tasks]
    rcases h.active_mark j f0 hf0 hact with hM | hM
    · exact Or.inl (hidx ▸ hM)
    · exact Or.inr (hidx ▸ hM)
  · intro j j2 f f2 hne hf hf2 hl hl2
    obtain ⟨f0, hf0, hidx, hst⟩ := shutdown_origin hf
    obtain ⟨f02, hf02, hidx2, hst2⟩ := shutdown_origin hf2
    have hu := h.live_uniq j j2 f0 f02 hne hf0 hf02
      (by rw [hst hl]; exact hl) (by rw [hst2 hl2]; exact hl2)
    rw [hidx, hidx2] at hu
    exact hu
  · intro j f hf hq
    exact absurd hq (nq j f hf)
  · intro _ j f hf
    exact nq j f hf
  · intro _ j f hf
    exact nq j f hf

theorem inv_cancel {m : Mgr} (h : Inv m) : Inv (cancelFn m) := by
  unfold cancelFn
  have hgen : ∀ j f,
      ({ m with running := false } : Mgr).futures.get? j = some f →
      f.st = FutSt.queued →
      ({ m with running := false } : Mgr).executorGen = some f.gen :=
    h.queued_gen
  have nq := shutdown_no_queued hgen
  constructor
  · intro j f hf hq
    exact absurd hq (nq j f hf)
  · intro j f hf ha
    obtain ⟨f0, hf0, hidx, hst⟩ := shutdown_origin hf
    have hact : f0.st = FutSt.active := (hst (by simp [ha])).trans ha
    have hmap : (shutdownCancel { m with running := false }).tasks = m.tasks :=
      shutdown_tasks _
    simp only [hmap, List.get?_map]
    rcases h.active_mark j f0 hf0 hact with hM | hM
    · rw [← hidx, hM]
      simp
    · rw [← hidx, hM]
      simp
  · intro j j2 f f2 hne hf hf2 hl hl2
    obtain ⟨f0, hf0, hidx, hst⟩ := shutdown_origin hf
    obtain ⟨f02, hf02, hidx2, hst2⟩ := shutdown_origin hf2
    have hu := h.live_uniq j j2 f0 f02 hne hf0 hf02
      (by rw [hst hl]; exact hl) (by rw [hst2 hl2]; exact hl2)
    rw [hidx, hidx2] at hu
    exact hu
  · intro j f hf hq
    exact absurd hq (nq j f hf)
  · intro _ j f hf
    exact nq j f hf
  · intro _ j f hf
    exact nq j f hf

theorem append_get?_cases {α : Type} {l l2 : List α} {j : Nat} {a : α}
    (h : (l ++ l2).get? j = some a) :
    l.get? j = some a ∨ (l.length ≤ j ∧ l2.get? (j - l.length) = some a) := by
  by_cases hj : j < l.length
  · left
    rw [List.get?_append hj] at h
    exact h
  · right
    refine ⟨by omega, ?_⟩
    rw [List.get?_append_right (by omega)] at h
    exact h

/-- Invariant after submitting every pending task of `tasks` to a fresh
executor on a state whose live futures are all `active` and point at
tasks as `Inv` requires; shared by `start` and `resume`. -/
theorem inv_submit_core {m : Mgr} (h : Inv m)
    (hnoq : ∀ j f, m.futures.get? j = some f → f.st ≠ FutSt.queued)
    {m2 : Mgr}
    (htasks : m2.tasks = m.tasks)
    (hfut : m2.futures = m.futures ++ submitFutures m.tasks m.nextGen)
    (hgen : m2.executorGen = some m.nextGen)
    (hrun2 : m2.running = true)
    (hpau2 : m2.paused = false) : Inv m2 := by
  constructor
  · intro j f hf hq
    rw [hfut] at hf
    rcases append_get?_cases hf with hold | ⟨hle, hnew⟩
    · exact absurd hq (hnoq j f hold)
    · rw [htasks]
      exact (submitFutures_get? hnew).2.2
  · intro j f hf ha
    rw [hfut] at hf
    rcases append_get?_cases hf with hold | ⟨hle, hnew⟩
    · rw [htasks]
      exact h.active_mark j f hold ha
    · have := (submitFutures_get? hnew).1
      rw [ha] at this
      exact FutSt.noConfusion this
  · intro j j2 f f2 hne hf hf2 hl hl2
    rw [hfut] at hf hf2
    rcases append_get?_cases hf with hold | ⟨hle, hnew⟩ <;>
      rcases append_get?_cases hf2 with hold2 | ⟨hle2, hnew2⟩
    · exact h.live_uniq j j2 f f2 hne hold hold2 hl hl2
    · -- old live future vs freshly submitted queued future
      cases hst : f.st with
      | queued => exact absurd hst (hnoq j f hold)
      | dead => exact absurd hst hl
      | active =>
          intro hii
          have hpend := (submitFutures_get? hnew2).2.2
          rw [← hii] at hpend
          rcases h.active_mark j f hold hst with hM | hM <;>
            · rw [hM] at hpend
              exact Status.noConfusion (Option.some.inj hpend)
    · cases hst : f2.st with
      | queued => exact absurd hst (hnoq j2 f2 hold2)
      | dead => exact absurd hst hl2
      | active =>
          intro hii
          have hpend := (submitFutures_get? hnew).2.2
          rw [hii] at hpend
          rcases h.active_mark j2 f2 hold2 hst with hM | hM <;>
            · rw [hM] at hpend
              exact Status.noConfusion (Option.some.inj hpend)
    · exact submitFutures_idx_ne (by omega) hnew hnew2
  · intro j f hf hq
    rw [hfut] at hf
    rcases append_get?_cases hf with hold | ⟨hle, hnew⟩
    · exact absurd hq (hnoq j f hold)
    · rw [hgen, (submitFutures_get? hnew).2.1]
  · intro habs
    rw [hrun2] at habs
    exact Bool.noConfusion habs
  · intro habs
    rw [hpau2] at habs
    exact Bool.noConfusion habs

theorem inv_start {m : Mgr} (h : Inv m) : Inv (startFn m) := by
  unfold startFn
  by_cases hr : m.running
  · rw [if_pos hr]
    exact h
  · rw [if_neg hr]
    have hrf : m.running = false := by revert hr; cases m.running <;> simp
    have hnoq := h.idle_no_queued hrf
    by_cases h0 : m.tasks.length = 0
    · simp only [h0, if_pos rfl]
      constructor
      · exact h.queued_pending
      · exact h.active_mark
      · exact h.live_uniq
      · exact h.queued_gen
      · intro habs
        exact Bool.noConfusion habs
      · intro habs
        exact Bool.noConfusion habs
    · simp only [h0, if_neg h0]
      exact inv_submit_core h hnoq rfl rfl rfl rfl rfl

theorem inv_resume {m : Mgr} (h : Inv m)
    (hp : protoOp m Op.resume = true) : Inv (resumeFn m) := by
  unfold resumeFn
  by_cases hpa : m.paused
  · have hrun : m.running = true := by
      unfold protoOp at hp
      rw [hpa] at hp
      simpa using hp
    rw [if_neg (by rw [hpa]; simp)]
    exact inv_submit_core h (h.paused_no_queued hpa) rfl rfl rfl (by simp [hrun]) rfl
  · rw [if_pos (by revert hpa; cases m.paused <;> simp)]
    exact h

theorem validOp_beginW {m : Mgr} {k : Nat}
    (hv : validOp m (Op.beginW k) = true) :
    ∃ f, m.futures.get? k = some f ∧ f.st = FutSt.queued := by
  unfold validOp at hv
  dsimp only at hv
  cases hk : m.futures.get? k with
  | none =>
      rw [hk] at hv
      simp at hv
  | some f =>
      rw [hk] at hv
      simp at hv
      exact ⟨f, rfl, hv⟩

theorem validOp_finishW {m : Mgr} {k : Nat} {ok : Bool}
    (hv : validOp m (Op.finishW k ok) = true) :
    ∃ f, m.futures.get? k = some f ∧ f.st = FutSt.active := by
  unfold validOp at hv
  dsimp only at hv
  cases hk : m.futures.get? k with
  | none =>
      rw [hk] at hv
      simp at hv
  | some f =>
      rw [hk] at hv
      simp at hv
      exact ⟨f, rfl, hv⟩

theorem inv_begin {m : Mgr} {k : Nat} (h : Inv m)
    (hv : validOp m (Op.beginW k) = true) : Inv (beginFn m k) := by
  obtain ⟨f, hk, hq⟩ := validOp_beginW hv
  have hpend := h.queued_pending k f hk hq
  have hlt : f.idx < m.tasks.length := get?_some_lt hpend
  have hklt : k < m.futures.length := get?_some_lt hk
  unfold beginFn
  rw [hk]
  dsimp only
  rw [if_pos hq]
  constructor
  · intro j f2 hf2 hq2
    by_cases hjk : k = j
    · subst hjk
      rw [List.get?_set_eq_of_lt _ hklt] at hf2
      cases hf2
      exact FutSt.noConfusion hq2
    · rw [List.get?_set_ne _ _ hjk] at hf2
      have hne := h.live_uniq j k f2 f (fun hc => hjk hc.symm) hf2 hk
        (by rw [hq2]; simp) (by rw [hq]; simp)
      rw [List.get?_set_ne _ _ (fun hc => hne hc.symm)]
      exact h.queued_pending j f2 hf2 hq2
  · intro j f2 hf2 ha2
    by_cases hjk : k = j
    · subst hjk
      rw [List.get?_set_eq_of_lt _ hklt] at hf2
      cases hf2
      left
      rw [List.get?_set_eq_of_lt _ hlt]
    · rw [List.get?_set_ne _ _ hjk] at hf2
      have hne := h.live_uniq j k f2 f (fun hc => hjk hc.symm) hf2 hk
        (by rw [ha2]; simp) (by rw [hq]; simp)
      rw [List.get?_set_ne _ _ (fun hc => hne hc.symm)]
      exact h.active_mark j f2 hf2 ha2
  · intro j j2 f2 f3 hne hf2 hf3 hl2 hl3
    by_cases hjk : k = j <;> by_cases hjk2 : k = j2
    · exact absurd (hjk ▸ hjk2) hne
    · subst hjk
      rw [List.get?_set_eq_of_lt _ hklt] at hf2
      cases hf2
      rw [List.get?_set_ne _ _ hjk2] at hf3
      exact h.live_uniq k j2 f f3 hne hk hf3 (by rw [hq]; simp) hl3
    · subst hjk2
      rw [List.get?_set_eq_of_lt _ hklt] at hf3
      cases hf3
      rw [List.get?_set_ne _ _ hjk] at hf2
      exact h.live_uniq j k f2 f hne hf2 hk hl2 (by rw [hq]; simp)
    · rw [List.get?_set_ne _ _ hjk] at hf2
      rw [List.get?_set_ne _ _ hjk2] at hf3
      exact h.live_uniq j j2 f2 f3 hne hf2 hf3 hl2 hl3
  · intro j f2 hf2 hq2
    by_cases hjk : k = j
    · subst hjk
      rw [List.get?_set_eq_of_lt _ hklt] at hf2
      cases hf2
      exact FutSt.noConfusion hq2
    · rw [List.get?_set_ne _ _ hjk] at hf2
      exact h.queued_gen j f2 hf2 hq2
  · intro habs
    exact absurd hq (h.idle_no_queued habs k f hk)
  · intro habs
    exact absurd hq (h.paused_no_queued habs k f hk)

theorem inv_finish {m : Mgr} {k : Nat} {ok : Bool} (h : Inv m)
    (hv : validOp m (Op.finishW k ok) = true) : Inv (finishFn m k ok) := by
  obtain ⟨f, hk, ha⟩ := validOp_finishW hv
  have hmark := h.active_mark k f hk ha
  have hlt : f.idx < m.tasks.length := by
    rcases hmark with hM | hM <;> exact get?_some_lt hM
  have hklt : k < m.futures.length := get?_some_lt hk
  unfold finishFn
  rw [hk]
  dsimp only
  rw [if_pos ha]
  constructor
  · intro j f2 hf2 hq2
    by_cases hjk : k = j
    · subst hjk
      rw [List.get?_set_eq_of_lt _ hklt] at hf2
      cases hf2
      exact FutSt.noConfusion hq2
    · rw [List.get?_set_ne _ _ hjk] at hf2
      have hne := h.live_uniq j k f2 f (fun hc => hjk hc.symm) hf2 hk
        (by rw [hq2]; simp) (by rw [ha]; simp)
      rw [List.get?_set_ne _ _ (fun hc => hne hc.symm)]
      exact h.queued_pending j f2 hf2 hq2
  · intro j f2 hf2 ha2
    by_cases hjk : k = j
    · subst hjk
      rw [List.get?_set_eq_of_lt _ hklt] at hf2
      cases hf2
      exact FutSt.noConfusion ha2
    · rw [List.get?_set_ne _ _ hjk] at hf2
      have hne := h.live_uniq j k f2 f (fun hc => hjk hc.symm) hf2 hk
        (by rw [ha2]; simp) (by rw [ha]; simp)
      rw [List.get?_set_ne _ _ (fun hc => hne hc.symm)]
      exact h.active_mark j f2 hf2 ha2
  · intro j j2 f2 f3 hne hf2 hf3 hl2 hl3
    by_cases hjk : k = j <;> by_cases hjk2 : k = j2
    · exact absurd (hjk ▸ hjk2) hne
    · subst hjk
      rw [List.get?_set_eq_of_lt _ hklt] at hf2
      cases hf2
      exact absurd rfl hl2
    · subst hjk2
      rw [List.get?_set_eq_of_lt _ hklt] at hf3
      cases hf3
      exact absurd rfl hl3
    · rw [List.get?_set_ne _ _ hjk] at hf2
      rw [List.get?_set_ne _ _ hjk2] at hf3
      exact h.live_uniq j j2 f2 f3 hne hf2 hf3 hl2 hl3
  · intro j f2 hf2 hq2
    by_cases hjk : k = j
    · subst hjk
      rw [List.get?_set_eq_of_lt _ hklt] at hf2
      cases hf2
      exact FutSt.noConfusion hq2
    · rw [List.get?_set_ne _ _ hjk] at hf2
      exact h.queued_gen j f2 hf2 hq2
  · intro habs j f2 hf2
    by_cases hjk : k = j
    · subst hjk
      rw [List.get?_set_eq_of_lt _ hklt] at hf2
      cases hf2
      simp
    · rw [List.get?_set_ne _ _ hjk] at hf2
      exact h.idle_no_queued habs j f2 hf2
  · intro habs j f2 hf2
    by_cases hjk : k = j
    · subst hjk
      rw [List.get?_set_eq_of_lt _ hklt] at hf2
      cases hf2
      simp
    · rw [List.get?_set_ne _ _ hjk] at hf2
      exact h.paused_no_queued habs j f2 hf2

theorem startFn_tasks (m : Mgr) : (startFn m).tasks = m.tasks := by
  unfold startFn
  split
  · rfl
  · dsimp only
    split <;> rfl

theorem pauseFn_tasks (m : Mgr) : (pauseFn m).tasks = m.tasks :=
  shutdown_tasks _

theorem resumeFn_tasks (m : Mgr) : (resumeFn m).tasks = m.tasks := by
  unfold resumeFn
  split <;> rfl

theorem cancelFn_tasks_get? (m : Mgr) (i : Nat) :
    (cancelFn m).tasks.get? i =
      (m.tasks.get? i).map
        (fun s => if s = Status.running then Status.cancelled else s) := by
  unfold cancelFn shutdownCancel
  cases h : m.executorGen <;> simp [h, List.get?_map]

/-- One enabled step only moves any task slot along an allowed status
edge. -/
theorem step_allowed {m : Mgr} (h : Inv m) (op : Op)
    (hv : validOp m op = true) (i : Nat) :
    allowedNext (m.tasks.get? i) ((applyOp m op).tasks.get? i) = true := by
  cases op with
  | add =>
      show allowedNext (m.tasks.get? i)
        ((m.tasks ++ [Status.pending]).get? i) = true
      cases hi : m.tasks.get? i with
      | some s =>
          rw [get?_append_of_some hi]
          exact allowedNext_refl _
      | none =>
          have hle : m.tasks.length ≤ i := by
            by_contra hc
            rw [List.get?_eq_none] at hi
            omega
          rw [List.get?_append_right hle]
          cases hd : i - m.tasks.length with
          | zero => rfl
          | succ n => rfl
  | start =>
      show allowedNext (m.tasks.get? i) ((startFn m).tasks.get? i) = true
      rw [startFn_tasks]
      exact allowedNext_refl _
  | pause =>
      show allowedNext (m.tasks.get? i) ((pauseFn m).tasks.get? i) = true
      rw [pauseFn_tasks]
      exact allowedNext_refl _
  | resume =>
      show allowedNext (m.tasks.get? i) ((resumeFn m).tasks.get? i) = true
      rw [resumeFn_tasks]
      exact allowedNext_refl _
  | cancel =>
      show allowedNext (m.tasks.get? i) ((cancelFn m).tasks.get? i) = true
      rw [cancelFn_tasks_get?]
      cases hi : m.tasks.get? i with
      | none => rfl
      | some s => cases s <;> rfl
  | beginW k =>
      obtain ⟨f, hk, hq⟩ := validOp_beginW hv
      have hpend := h.queued_pending k f hk hq
      have hlt : f.idx < m.tasks.length := get?_some_lt hpend
      show allowedNext (m.tasks.get? i) ((beginFn m k).tasks.get? i) = true
      unfold beginFn
      rw [hk]
      dsimp only
      rw [if_pos hq]
      show allowedNext (m.tasks.get? i)
        ((m.tasks.set f.idx Status.running).get? i) = true
      by_cases hif : f.idx = i
      · subst hif
        rw [List.get?_set_eq_of_lt _ hlt, hpend]
        rfl
      · rw [List.get?_set_ne _ _ hif]
        exact allowedNext_refl _
  | finishW k ok =>
      obtain ⟨f, hk, ha⟩ := validOp_finishW hv
      have hmark := h.active_mark k f hk ha
      have hlt : f.idx < m.tasks.length := by
        rcases hmark with hM | hM <;> exact get?_some_lt hM
      show allowedNext (m.tasks.get? i) ((finishFn m k ok).tasks.get? i) = true
      unfold finishFn
      rw [hk]
      dsimp only
      rw [if_pos ha]
      show allowedNext (m.tasks.get? i)
        ((m.tasks.set f.idx
          (if ok then Status.completed else Status.failed)).get? i) = true
      by_cases hif : f.idx = i
      · subst hif
        rw [List.get?_set_eq_of_lt _ hlt]
        rcases hmark with hM | hM <;> rw [hM] <;> cases ok <;> rfl
      · rw [List.get?_set_ne _ _ hif]
        exact allowedNext_refl _

/-- The invariant is preserved by every enabled, protocol-respecting
step. -/
theorem inv_step {m : Mgr} {op : Op} (h : Inv m) (hv : validOp m op = true)
    (hp : protoOp m op = true) : Inv (applyOp m op) := by
  cases op with
  | add => exact inv_add h
  | start => exact inv_start h
  | pause => exact inv_pause h
  | resume => exact inv_resume h hp
  | cancel => exact inv_cancel h
  | beginW k => exact inv_begin h hv
  | finishW k ok => exact inv_finish h hv

theorem inv_runOps : ∀ (ops : List Op) (m : Mgr), Inv m →
    validOps m ops = true → protoOps m ops = true → Inv (runOps m ops)
  | [], _, h, _, _ => h
  | op :: rest, m, h, hv, hp => by
      unfold validOps at hv
      unfold protoOps at hp
      rw [Bool.and_eq_true] at hv hp
      exact inv_runOps rest (applyOp m op) (inv_step h hv.1 hp.1) hv.2 hp.2

theorem runOps_append (m : Mgr) (ops : List Op) (op : Op) :
    runOps m (ops ++ [op]) = applyOp (runOps m ops) op := by
  unfold runOps
  rw [List.foldl_append]
  rfl

theorem validOps_append_parts : ∀ (ops : List Op) (m : Mgr) (op : Op),
    validOps m (ops ++ [op]) = true →
    validOps m ops = true ∧ validOp (runOps m ops) op = true
  | [], m, op, h => by
      rw [List.nil_append] at h
      unfold validOps at h
      rw [Bool.and_eq_true] at h
      exact ⟨rfl, h.1⟩
  | o :: rest, m, op, h => by
      rw [List.cons_append] at h
      unfold validOps at h ⊢
      rw [Bool.and_eq_true] at h
      rw [Bool.and_eq_true]
      obtain ⟨h1, h2⟩ := validOps_append_parts rest (applyOp m o) op h.2
      exact ⟨⟨h.1, h1⟩, h2⟩

theorem protoOps_append_parts : ∀ (ops : List Op) (m : Mgr) (op : Op),
    protoOps m (ops ++ [op]) = true →
    protoOps m ops = true ∧ protoOp (runOps m ops) op = true
  | [], m, op, h => by
      rw [List.nil_append] at h
      unfold protoOps at h
      rw [Bool.and_eq_true] at h
      exact ⟨rfl, h.1⟩
  | o :: rest, m, op, h => by
      rw [List.cons_append] at h
      unfold protoOps at h ⊢
      rw [Bool.and_eq_true] at h
      rw [Bool.and_eq_true]
      obtain ⟨h1, h2⟩ := protoOps_append_parts rest (applyOp m o) op h.2
      exact ⟨⟨h.1, h1⟩, h2⟩

/-- C3, counterexample: a task's status is changed again after it has
left `running`.  With one task started and picked up by a worker,
`cancel()` marks it `cancelled`; the in-flight worker then finishes and
`compress_directory` overwrites the status to `completed` — a later step
of a valid, protocol-respecting run changed a status that had already
left `running`. -/
theorem cancelled_status_overwritten_cx :
    validOps initMgr
      [Op.add, Op.start, Op.beginW 0, Op.cancel, Op.finishW 0 true] = true ∧
    protoOps initMgr
      [Op.add, Op.start, Op.beginW 0, Op.cancel, Op.finishW 0 true] = true ∧
    (runOps initMgr [Op.add, Op.start, Op.beginW 0, Op.cancel]).tasks
      = [Status.cancelled] ∧
    (runOps initMgr
      [Op.add, Op.start, Op.beginW 0, Op.cancel, Op.finishW 0 true]).tasks
      = [Status.completed] := by
  decide

/-- C3, amended: along every enabled step sequence that respects the
documented call protocol (`resume` only invoked on a paused manager whose
run is live), each task slot only ever moves along
`pending → running → {completed, failed, cancelled}` — with the single
exception forced by the counterexample: a task set `cancelled` by
`cancel()` while its worker is in flight is overwritten to `completed` or
`failed` when that worker finishes.  `resume` itself starts fresh
executions only for tasks still `pending`. -/
theorem task_status_transitions (ops : List Op) (op : Op) (i : Nat)
    (hv : validOps initMgr (ops ++ [op]) = true)
    (hp : protoOps initMgr (ops ++ [op]) = true) :
    allowedNext ((runOps initMgr ops).tasks.get? i)
      ((runOps initMgr (ops ++ [op])).tasks.get? i) = true := by
  obtain ⟨hv1, hv2⟩ := validOps_append_parts ops initMgr op hv
  obtain ⟨hp1, hp2⟩ := protoOps_append_parts ops initMgr op hp
  rw [runOps_append]
  exact step_allowed (inv_runOps ops initMgr inv_initMgr hv1 hp1) op hv2 i

/-- Witness for the amended C3 theorem at a concrete run: after
`add; start`, letting the worker pick the task up moves slot 0 along an
allowed edge (`pending → running`). -/
theorem task_status_transitions_witness :
    allowedNext ((runOps initMgr [Op.add, Op.start]).tasks.get? 0)
      ((runOps initMgr ([Op.add, Op.start] ++ [Op.beginW 0])).tasks.get? 0)
      = true :=
  task_status_transitions [Op.add, Op.start] (Op.beginW 0) 0
    (by decide) (by decide)

/-! ### Classifier and archive round-trip claims -/

theorem any_perm_eq {α : Type} {l l2 : List α} {p : α → Bool}
    (h : l.Perm l2) : l.any p = l2.any p := by
  cases ha : l2.any p
  · rw [List.any_eq_false] at ha ⊢
    intro a hm
    exact ha a (h.mem_iff.mp hm)
  · rw [List.any_eq_true] at ha ⊢
    obtain ⟨a, hm, hp⟩ := ha
    exact ⟨a, h.mem_iff.mpr hm, hp⟩

theorem chapterScan_fst : ∀ (l : List Entry) (hi hs : Bool),
    (chapterScan l hi hs).1 = (hi || l.any isDirectImage)
  | [], hi, hs => by simp [chapterScan]
  | Entry.file n :: rest, hi, hs => by
      rw [chapterScan, chapterScan_fst rest]
      simp [isDirectImage, Bool.or_assoc]
  | Entry.dir n :: rest, hi, hs => by
      rw [chapterScan]
      by_cases hex : excluded_dirs.contains n
      · rw [if_pos hex, chapterScan_fst rest]
        simp [isDirectImage]
      · rw [if_neg hex]
        by_cases hhi : hi = true
        · rw [if_pos hhi, hhi]
          simp
        · rw [if_neg hhi, chapterScan_fst rest]
          simp [isDirectImage]
  | Entry.other n :: rest, hi, hs => by
      rw [chapterScan, chapterScan_fst rest]
      simp [isDirectImage]

theorem is_chapter_eq_any (l : List Entry) :
    is_chapter_directory l = l.any isDirectImage := by
  unfold is_chapter_directory
  have h := chapterScan_fst l false false
  rcases hp : chapterScan l false false with ⟨b1, b2⟩
  rw [hp] at h
  simp only [Bool.false_or] at h
  rw [← h]
  cases b1 <;> cases b2 <;> rfl

/-- C5: a readable directory is classified as a chapter exactly when its
listing directly contains at least one file whose lower-cased extension
is allow-listed — sub-directories (excluded or not) and non-image files
never change the verdict — and the verdict is independent of the order in
which `os.scandir` enumerates the entries. -/
theorem chapter_iff_direct_image (l : List Entry) :
    is_chapter_directory l = l.any isDirectImage ∧
    (∀ l2, l.Perm l2 → is_chapter_directory l2 = is_chapter_directory l) := by
  refine ⟨is_chapter_eq_any l, fun l2 hperm => ?_⟩
  rw [is_chapter_eq_any l, is_chapter_eq_any l2]
  exact any_perm_eq hperm.symm

theorem count_fold (fs : List FileEnt) (a b : Nat) :
    fs.foldl
      (fun acc f => if is_image_file f.name then (acc.1 + 1, acc.2 + f.size) else acc)
      (a, b) =
    (a + (fs.filterMap
        (fun f => if is_image_file f.name then some (⟨f.name, f.size⟩ : ZipEntry) else none)).length,
      b + ((fs.filterMap
        (fun f => if is_image_file f.name then some (⟨f.name, f.size⟩ : ZipEntry) else none)).map
          ZipEntry.size).sum) := by
  induction fs generalizing a b with
  | nil => simp
  | cons f rest ih =>
      by_cases himg : is_image_file f.name
      · simp [himg, ih]
        constructor <;> omega
      · simp [himg, ih]

/-- C6: executing the archive step of a chapter task writes exactly one
flattened entry per recognized image file of the walked tree — duplicate
base names included, since `ZipFile.write` appends — so the produced ZIP
has exactly `image_count` entries and their decompressed sizes sum to
`original_size`, the pair computed by `count_images_in_directory`. -/
theorem zip_roundtrip (d : FsDir) :
    (zipEntriesOf d).length = (count_images_in_directory d).1 ∧
    ((zipEntriesOf d).map ZipEntry.size).sum = (count_images_in_directory d).2 := by
  unfold zipEntriesOf count_images_in_directory
  rw [count_fold]
  simp

/-- C7: `compress_directory` contains every filesystem failure.  For
every pattern of step outcomes the function returns a task (it is total:
the `try/except Exception` translation has no escaping error path), the
result is `completed`, or `failed` exactly when some executed step
raised, in which case the caught error object is stored; `end_time` is
recorded on both paths, `start_time` at entry, and the task's identity
and configuration fields are returned unchanged. -/
theorem compress_never_escapes (env : FsEnv) (t : CTask) :
    ((compressDirectory env t).status = Status.completed ∨
      ((compressDirectory env t).status = Status.failed ∧
        ((compressDirectory env t).error).isSome = true)) ∧
    ((compressDirectory env t).status = Status.failed ↔
      anyStepFails env t = true) ∧
    (compressDirectory env t).end_time = some env.now2 ∧
    (compressDirectory env t).start_time = some env.now1 ∧
    (compressDirectory env t).source_path = t.source_path ∧
    (compressDirectory env t).preserve_timestamp = t.preserve_timestamp ∧
    (compressDirectory env t).rename_pattern = t.rename_pattern := by
  obtain ⟨n1, n2, ci, gm, wz, fin, ut, m5, gs, rt⟩ := env
  unfold compressDirectory anyStepFails isErr
  cases gm <;> cases wz <;> cases fin <;> cases m5 <;> cases gs <;> cases rt <;>
    cases hp : t.preserve_timestamp <;> cases ut <;> simp [hp]

/-- C9: the per-task record divides original by compressed size (0 when
compressed is 0), while the aggregate of `get_stats` divides total
compressed by total original — for a completed task with nonzero sizes
the two reported ratios are exact reciprocals of each other. -/
theorem ratio_orientations (t : CTask)
    (h1 : t.original_size ≠ 0) (h2 : t.compressed_size ≠ 0) :
    toDictRatio t = (t.original_size : ℚ) / (t.compressed_size : ℚ) ∧
    (getStats [{ t with status := Status.completed }]).compression_ratio =
      (t.compressed_size : ℚ) / (t.original_size : ℚ) ∧
    toDictRatio t *
      (getStats [{ t with status := Status.completed }]).compression_ratio
      = 1 := by
  have ho : (t.original_size : ℚ) ≠ 0 := Nat.cast_ne_zero.mpr h1
  have hc : (t.compressed_size : ℚ) ≠ 0 := Nat.cast_ne_zero.mpr h2
  have e1 : toDictRatio t = (t.original_size : ℚ) / (t.compressed_size : ℚ) := by
    unfold toDictRatio
    rw [if_neg h2]
  have e2 : (getStats [{ t with status := Status.completed }]).compression_ratio =
      (t.compressed_size : ℚ) / (t.original_size : ℚ) := by
    simp [getStats, h1]
  refine ⟨e1, e2, ?_⟩
  rw [e1, e2, div_mul_div_comm, mul_comm (t.original_size : ℚ)]
  exact div_self (mul_ne_zero hc ho)

/-- A sample finished task used to witness the ratio claim. -/
def sampleTask : CTask :=
  { mkTask [] [] true false with original_size := 4, compressed_size := 2 }

/-- Witness for the ratio theorem at a concrete task: original 4 bytes,
compressed 2 bytes. -/
theorem ratio_orientations_witness :
    sampleTask.original_size ≠ 0 ∧ sampleTask.compressed_size ≠ 0 ∧
    (toDictRatio sampleTask =
        (sampleTask.original_size : ℚ) / (sampleTask.compressed_size : ℚ) ∧
      (getStats [{ sampleTask with status := Status.completed }]).compression_ratio =
        (sampleTask.compressed_size : ℚ) / (sampleTask.original_size : ℚ) ∧
      toDictRatio sampleTask *
        (getStats [{ sampleTask with status := Status.completed }]).compression_ratio
        = 1) :=
  ⟨by decide, by decide,
    ratio_orientations sampleTask (by decide) (by decide)⟩

theorem range'_append_nat (s m n : Nat) :
    List.range' s m ++ List.range' (s + m) n = List.range' s (m + n) := by
  have h := List.range'_append s m n 1
  rw [Nat.one_mul] at h
  rw [h, Nat.add_comm n m]

mutual

theorem procDirs_spec (maxD d p : Nat) (n : DirNode) :
    procDirs maxD d p n =
      (p + visitDirs maxD d n, List.range' (p + 1) (visitDirs maxD d n)) := by
  cases n with
  | node name subs =>
      rw [procDirs, visitDirs]
      by_cases hd : maxD ≤ d
      · rw [if_pos hd, if_pos hd]
        simp
      · rw [if_neg hd, if_neg hd]
        dsimp only
        rw [procDirsList_spec maxD (d + 1) (p + (filterEx subs).length) subs]
        refine Prod.ext (by dsimp; omega) ?_
        dsimp
        rw [← List.range'_eq_map_range (p + 1) (filterEx subs).length]
        rw [show p + (filterEx subs).length + 1 = (p + 1) + (filterEx subs).length
              from by omega]
        exact range'_append_nat (p + 1) (filterEx subs).length
          (visitDirsList maxD (d + 1) subs)

theorem procDirsList_spec (maxD d p : Nat) (l : List DirNode) :
    procDirsList maxD d p l =
      (p + visitDirsList maxD d l,
        List.range' (p + 1) (visitDirsList maxD d l)) := by
  cases l with
  | nil =>
      rw [procDirsList, visitDirsList]
      simp
  | cons c cs =>
      rw [procDirsList, visitDirsList]
      by_cases hex : excluded_dirs.contains c.dname
      · rw [if_pos hex, if_pos hex, procDirsList_spec maxD d p cs]
        simp
      · rw [if_neg hex, if_neg hex]
        rw [procDirs_spec maxD d p c]
        dsimp only
        rw [procDirsList_spec maxD d (p + visitDirs maxD d c) cs]
        refine Prod.ext (by dsimp; omega) ?_
        dsimp
        rw [show p + visitDirs maxD d c + 1 = (p + 1) + visitDirs maxD d c
              from by omega]
        exact range'_append_nat (p + 1) (visitDirs maxD d c)
          (visitDirsList maxD d cs)

end

mutual

theorem visit_le_tot (maxD d : Nat) (n : DirNode) :
    visitDirs maxD d n ≤ totDirs maxD d n := by
  cases n with
  | node name subs =>
      rw [visitDirs, totDirs]
      by_cases hd : maxD ≤ d
      · rw [if_pos hd, if_pos hd]
        omega
      · rw [if_neg hd, if_neg hd]
        have h1 : (filterEx subs).length ≤ subs.length :=
          List.length_filter_le _ subs
        have h2 := visitList_le_totList maxD (d + 1) subs
        omega

theorem visitList_le_totList (maxD d : Nat) (l : List DirNode) :
    visitDirsList maxD d l ≤ totDirsList maxD d l := by
  cases l with
  | nil =>
      rw [visitDirsList, totDirsList]
  | cons c cs =>
      rw [visitDirsList, totDirsList]
      have h2 := visitList_le_totList maxD d cs
      by_cases hex : excluded_dirs.contains c.dname
      · rw [if_pos hex, if_pos hex]
        omega
      · rw [if_neg hex, if_neg hex]
        have h1 := visit_le_tot maxD d c
        omega

end

/-- C8: over a static snapshot, one scan fires the progress callback
exactly once per directory visited in the classification pass, passing
the counter values 1,2,…,V in order; every fraction
`processed / total_dirs` (denominator from the first counting pass) lies
in [0,1], and the fractions are monotonically non-decreasing. -/
theorem scan_progress_spec (maxD : Nat) (root : DirNode) :
    (scanEmissions maxD root).length = visitDirs maxD 0 root ∧
    scanEmissions maxD root = List.range' 1 (visitDirs maxD 0 root) ∧
    (∀ q ∈ scanFractions maxD root, 0 ≤ q ∧ q ≤ 1) ∧
    List.Chain' (fun a b => a ≤ b) (scanFractions maxD root) := by
  have hemit : scanEmissions maxD root =
      List.range' 1 (visitDirs maxD 0 root) := by
    unfold scanEmissions
    rw [procDirs_spec]
  have hVT := visit_le_tot maxD 0 root
  have hfrac : scanFractions maxD root =
      (List.range' 1 (visitDirs maxD 0 root)).map
        (fun p : Nat => (p : ℚ) / ((totDirs maxD 0 root : Nat) : ℚ)) := by
    unfold scanFractions
    rw [hemit]
  refine ⟨by rw [hemit, List.length_range'], hemit, ?_, ?_⟩
  · intro q hq
    rw [hfrac, List.mem_map] at hq
    obtain ⟨p, hp, rfl⟩ := hq
    rw [List.mem_range'_1] at hp
    have hp2 : p ≤ visitDirs maxD 0 root := by omega
    have hT : 0 < totDirs maxD 0 root := by omega
    refine ⟨by positivity, ?_⟩
    rw [div_le_one (by exact_mod_cast hT)]
    exact_mod_cast le_trans hp2 hVT
  · by_cases hT0 : totDirs maxD 0 root = 0
    · have hV0 : visitDirs maxD 0 root = 0 := by omega
      rw [hfrac, hV0]
      simp
    · rw [hfrac]
      apply List.Pairwise.chain'
      rw [List.pairwise_map]
      refine List.Pairwise.imp ?_
        (List.pairwise_lt_range' 1 (visitDirs maxD 0 root) 1)
      intro a b hab
      have hT : (0 : ℚ) < ((totDirs maxD 0 root : Nat) : ℚ) := by
        exact_mod_cast Nat.pos_of_ne_zero hT0
      exact (div_le_div_right hT).mpr (by exact_mod_cast Nat.le_of_lt hab)

end ComicsZipper
